import Mathlib

/-!
Verification development for the Nex Level Code session-memory capture and
sync engine.  The definitions below are a shallow embedding of the hook
scripts embedded in `src/services/install.ts` (the context-keeper and
development-logger hooks) and of `templates/hooks/memory-sync.js`.
JavaScript strings are modelled as Lean `String` / `List Char`; a JSON
transcript line is modelled by the result of parsing it (`TLine`);
filesystem documents are modelled as `Option String` (absent / content).
-/

set_option maxRecDepth 10000

/-- JavaScript `a || b` on an optional string: falls back to the default when
the value is absent or the empty string (falsy). -/
def jsOr (o : Option String) (d : String) : String :=
  match o with
  | some s => if s = "" then d else s
  | none => d

/-- JavaScript truthiness of an optional string value. -/
def jsTruthy (o : Option String) : Bool :=
  match o with
  | some s => !(s == "")
  | none => false

/-- Leading-whitespace strip on a character list. -/
def listTrimLeft (l : List Char) : List Char :=
  match l with
  | [] => []
  | c :: t => if c.isWhitespace then listTrimLeft t else c :: t

/-- JavaScript `s.trim()`: strip whitespace from both ends. -/
def jsTrim (s : String) : String :=
  String.mk ((listTrimLeft (listTrimLeft s.data).reverse).reverse)

/-- JavaScript `s.startsWith(pre)`. -/
def jsStartsWith (s pre : String) : Bool :=
  pre.data.isPrefixOf s.data

/-- Splitting a character list on a separator character, JavaScript
`split` semantics (an empty input yields one empty chunk). -/
def splitOnChar (sep : Char) (l : List Char) : List (List Char) :=
  match l with
  | [] => [[]]
  | c :: t =>
    match splitOnChar sep t with
    | [] => [[]]
    | h :: rest => if c = sep then [] :: h :: rest else (c :: h) :: rest

/-- JavaScript `s.split('\n')`. -/
def jsSplitNewlines (s : String) : List String :=
  (splitOnChar '\n' s.data).map String.mk

/-- One content block of an assistant message, as read from a transcript line.
`toolUse` carries the `name`, `input.file_path`, `input.pattern` and
`input.command` fields the hooks inspect (absent fields are `none`). -/
inductive Block where
  | text (t : String)
  | toolUse (name : Option String) (filePath : Option String)
      (pattern : Option String) (command : Option String)
  | other
deriving DecidableEq

/-- The `message.content` field of a transcript entry: a plain string, an
array of blocks, or absent / some other shape. -/
inductive MsgContent where
  | str (s : String)
  | arr (bs : List Block)
  | missing
deriving DecidableEq

/-- One raw line of the transcript file.  `blank` is a line whose trimmed
text is empty (filtered out before parsing); `malformed` is a non-blank line
on which `JSON.parse` throws; `otherType` is a parsed record whose `type` is
neither `assistant` nor `user`. -/
inductive TLine where
  | blank
  | malformed
  | assistant (c : MsgContent)
  | user (c : MsgContent)
  | otherType
deriving DecidableEq

/-- Whether a raw transcript line survives the `filter(l => l.trim())` step. -/
def isNonBlank (l : TLine) : Bool :=
  match l with
  | .blank => false
  | _ => true

/-- The non-blank lines of a transcript, in order (the `lines` value of
`getLatestExchange`). -/
def nbLines (t : List TLine) : List TLine :=
  t.filter isNonBlank

/-- Development-logger rendering of one assistant content block
(`install.ts`, dev-logger `getLatestExchange`): text blocks are emitted when
non-empty; tool-use blocks are emitted as a bracketed descriptor. -/
def devBlockParts (b : Block) : List String :=
  match b with
  | .text t => if t = "" then [] else [t]
  | .toolUse nm fp pt cmd =>
    let n := jsOr nm "unknown"
    if n = "Write" ∨ n = "Edit" then
      ["[" ++ n ++ ": " ++ jsOr fp "unknown file" ++ "]"]
    else if n = "Bash" then
      ["[Bash: " ++ (jsOr cmd "").take 300 ++ "]"]
    else
      ["[" ++ n ++ ": " ++ jsOr fp (jsOr pt "") ++ "]"]
  | .other => []

/-- Context-keeper rendering of one assistant content block (`install.ts`,
context-keeper `getLatestExchange`); differs from the dev-logger only in the
non-Write/Edit/Bash branches. -/
def ctxBlockParts (b : Block) : List String :=
  match b with
  | .text t => if t = "" then [] else [t]
  | .toolUse nm fp pt cmd =>
    let n := jsOr nm "unknown"
    if n = "Write" ∨ n = "Edit" then
      ["[" ++ n ++ ": " ++ jsOr fp "unknown file" ++ "]"]
    else if n = "Bash" then
      ["[Bash: " ++ (jsOr cmd "").take 300 ++ "]"]
    else if n = "Read" ∨ n = "Glob" ∨ n = "Grep" then
      ["[" ++ n ++ ": " ++ jsOr fp (jsOr pt "") ++ "]"]
    else
      ["[" ++ n ++ "]"]
  | .other => []

/-- The text of a user entry: a string content verbatim, an array content as
the space-joined texts of its text blocks, anything else as the empty
string. -/
def userText (c : MsgContent) : String :=
  match c with
  | .str s => s
  | .arr bs =>
    String.intercalate " " (bs.filterMap fun b =>
      match b with
      | .text t => some t
      | _ => none)
  | .missing => ""

/-- The strings one parsed transcript line contributes to `parts`
(dev-logger variant).  Blank, malformed and other-typed lines contribute
nothing. -/
def devLineParts (l : TLine) : List String :=
  match l with
  | .blank => []
  | .malformed => []
  | .otherType => []
  | .assistant (.str s) => [s]
  | .assistant (.arr bs) => bs.flatMap devBlockParts
  | .assistant .missing => []
  | .user c =>
    let t := userText c
    if t = "" then [] else ["USER: " ++ t.take 500]

/-- The strings one parsed transcript line contributes to `parts`
(context-keeper variant). -/
def ctxLineParts (l : TLine) : List String :=
  match l with
  | .blank => []
  | .malformed => []
  | .otherType => []
  | .assistant (.str s) => [s]
  | .assistant (.arr bs) => bs.flatMap ctxBlockParts
  | .assistant .missing => []
  | .user c =>
    let t := userText c
    if t = "" then [] else ["USER: " ++ t.take 500]

/-- Whether a line sets the `hasToolUse` flag: only an assistant entry with
an array content containing a `tool_use` block does. -/
def lineHasToolUse (l : TLine) : Bool :=
  match l with
  | .assistant (.arr bs) =>
    bs.any fun b =>
      match b with
      | .toolUse _ _ _ _ => true
      | _ => false
  | _ => false

/-- The value returned by `getLatestExchange`. -/
structure ExchangeResult where
  text : String
  hasToolUse : Bool
  totalLines : Nat
deriving DecidableEq

/-- Development-logger `getLatestExchange` (`install.ts`): filter blank
lines, drop the first `cursorLine` of them, render the remainder.  An
existing transcript file is assumed (the caller handles the missing-file
`null` via an `Option` transcript). -/
def devGetLatestExchange (transcript : List TLine) (cursorLine : Nat) :
    ExchangeResult :=
  let lines := nbLines transcript
  let newLines := lines.drop cursorLine
  if newLines.isEmpty then
    { text := "", hasToolUse := false, totalLines := lines.length }
  else
    { text := String.intercalate "\n" (newLines.flatMap devLineParts)
      hasToolUse := newLines.any lineHasToolUse
      totalLines := lines.length }

/-- Context-keeper `getLatestExchange` (`install.ts`). -/
def ctxGetLatestExchange (transcript : List TLine) (cursorLine : Nat) :
    ExchangeResult :=
  let lines := nbLines transcript
  let newLines := lines.drop cursorLine
  if newLines.isEmpty then
    { text := "", hasToolUse := false, totalLines := lines.length }
  else
    { text := String.intercalate "\n" (newLines.flatMap ctxLineParts)
      hasToolUse := newLines.any lineHasToolUse
      totalLines := lines.length }

/-- The filesystem state one invocation of the hooks can read and write:
the two per-session cursor maps (`dev-cursor.json`, `context-cursor.json`,
modelled as total maps with default `0` for absent sessions), the daily log
document of the run's date, and the handoff document. -/
structure FsState where
  devCursors : String → Nat
  ctxCursors : String → Nat
  dailyLog : Option String
  handoff : Option String

/-- `setCursor` of the dev-logger: read-modify-write of the per-session
cursor map. -/
def setDevCursor (st : FsState) (sid : String) (line : Nat) : FsState :=
  { st with devCursors := fun s => if s = sid then line else st.devCursors s }

/-- `setContextCursor` of the context-keeper. -/
def setCtxCursor (st : FsState) (sid : String) (line : Nat) : FsState :=
  { st with ctxCursors := fun s => if s = sid then line else st.ctxCursors s }

/-- The observable behaviour of the awaited classifier call: either the
promise rejects (network error or unparseable body, caught by the hook's
top-level catch) or it resolves to `null` / a text. -/
inductive CallOutcome where
  | throws
  | returns (resp : Option String)
deriving DecidableEq

/-- The header line written when a daily log file is created
(`# Developments — <date>`). -/
def dailyHeader (dateStr : String) : String :=
  "# Developments — " ++ dateStr ++ "\n\n"

/-- One dev-logger merge into the daily log (`install.ts` lines 1042-1056):
read (or default to the dated header), append one rendered line per entry,
write back.  Returns the new file content; an empty entry list performs no
write. -/
def dailyLogMerge (dateStr timeStr : String) (devLines : List String)
    (file : Option String) : Option String :=
  if devLines.isEmpty then file
  else
    let existing := file.getD (dailyHeader dateStr)
    let entries := String.intercalate "\n"
      (devLines.map fun line => "- **" ++ timeStr ++ "** — " ++ line)
    some (existing ++ entries ++ "\n")

/-- The dev-logger main after the cursor update: pre-filter gate, classifier
call, sentinel check, entry parsing, daily-log write.  A thrown classifier
call is swallowed by the top-level catch, leaving the state as of the
cursor update. -/
def devRunAfterCursor (st : FsState) (result : ExchangeResult)
    (outcome : CallOutcome) (dateStr timeStr : String) : FsState :=
  if result.hasToolUse = false ∧ result.text.length < 100 then st
  else
    match outcome with
    | .throws => st
    | .returns none => st
    | .returns (some response) =>
      if response = "" ∨ jsTrim response = "NONE" ∨
          jsStartsWith (jsTrim response) "NONE" then st
      else
        let devLines := ((jsSplitNewlines (jsTrim response)).map jsTrim).filter
          fun l => !(l == "") && !(l == "NONE")
        if devLines.isEmpty then st
        else
          { st with
            dailyLog := dailyLogMerge dateStr timeStr devLines st.dailyLog }

/-- One invocation of the dev-logger hook (`install.ts` `main`, lines
1006-1061): missing transcript aborts; otherwise the cursor is read, the
exchange extracted, the cursor always advanced, and then the classify/log
stage runs. -/
def devRun (st : FsState) (transcript : Option (List TLine)) (sid : String)
    (outcome : CallOutcome) (dateStr timeStr : String) : FsState :=
  match transcript with
  | none => st
  | some t =>
    let result := devGetLatestExchange t (st.devCursors sid)
    let st1 := setDevCursor st sid result.totalLines
    devRunAfterCursor st1 result outcome dateStr timeStr

/-- JavaScript `hay.indexOf(pat)` on character lists: the index of the first
position at which `pat` is a prefix of the remaining list (`none` models
`-1`). -/
def listIdxOf (hay pat : List Char) : Option Nat :=
  match hay with
  | [] => if pat.isEmpty then some 0 else none
  | _ :: rest =>
    if pat.isPrefixOf hay then some 0
    else (listIdxOf rest pat).map (fun i => i + 1)

/-- The number of positions of `hay` at which `pat` occurs as a substring. -/
def countSubstr (hay pat : List Char) : Nat :=
  match hay with
  | [] => 0
  | _ :: rest =>
    (if pat.isPrefixOf hay then 1 else 0) + countSubstr rest pat

/-- The search string `"<!-- AUTO-CAPTURED"` used to locate the start of the
auto-captured section. -/
def startMarkerPat : List Char := "<!-- AUTO-CAPTURED".toList

/-- The end marker `"<!-- END AUTO-CAPTURED -->"`. -/
def endMarkerStr : List Char := "<!-- END AUTO-CAPTURED -->".toList

/-- The section replace of the context-keeper (`install.ts` lines 786-801):
if both markers are found, replace from the start marker through the end
marker inclusive with the freshly rendered section; otherwise prepend the
section (followed by a blank line when the document is non-empty). -/
def mergeAutoSection (content autoSection : List Char) : List Char :=
  match listIdxOf content startMarkerPat, listIdxOf content endMarkerStr with
  | some s, some e =>
    content.take s ++ autoSection ++ content.drop (e + endMarkerStr.length)
  | some _, none =>
    if content.length > 0 then autoSection ++ ('\n' :: '\n' :: content)
    else autoSection ++ ['\n']
  | none, _ =>
    if content.length > 0 then autoSection ++ ('\n' :: '\n' :: content)
    else autoSection ++ ['\n']

/-- The rendered auto-captured section: dated start marker, one bullet per
classified line (each normalized to begin with `"- "`), end marker. -/
def renderAutoSection (dateTimeStr : String) (bullets : List String) : String :=
  let autoStart := "<!-- AUTO-CAPTURED: " ++ dateTimeStr ++ " -->"
  let bulletLines := String.intercalate "\n"
    (bullets.map fun line => if jsStartsWith line "- " then line else "- " ++ line)
  autoStart ++ "\n" ++ bulletLines ++ "\n" ++ "<!-- END AUTO-CAPTURED -->"

/-- The context-keeper main after the cursor update (`install.ts` lines
749-803): pre-filter gate, classifier call, sentinel check, bullet parsing,
section replace into the handoff document. -/
def ctxRunAfterCursor (st : FsState) (result : ExchangeResult)
    (outcome : CallOutcome) (dateTimeStr : String) : FsState :=
  if result.hasToolUse = false ∧ result.text.length < 100 then st
  else
    match outcome with
    | .throws => st
    | .returns none => st
    | .returns (some response) =>
      if response = "" ∨ jsTrim response = "NONE" ∨
          jsStartsWith (jsTrim response) "NONE" then st
      else
        let bullets := ((jsSplitNewlines (jsTrim response)).map jsTrim).filter
          fun l => !(l == "") && !(l == "NONE")
        if bullets.isEmpty then st
        else
          let autoSection := renderAutoSection dateTimeStr bullets
          let content := st.handoff.getD ""
          let merged := mergeAutoSection content.toList autoSection.toList
          { st with handoff := some (String.mk merged) }

/-- One invocation of the context-keeper hook (`install.ts` `main`, lines
726-808). -/
def ctxRun (st : FsState) (transcript : Option (List TLine)) (sid : String)
    (outcome : CallOutcome) (dateTimeStr : String) : FsState :=
  match transcript with
  | none => st
  | some t =>
    let result := ctxGetLatestExchange t (st.ctxCursors sid)
    let st1 := setCtxCursor st sid result.totalLines
    ctxRunAfterCursor st1 result outcome dateTimeStr

/-- The credential environment `resolveApiKey` (dev-logger variant,
`install.ts` lines 822-851) consults.  A config file is `none` when absent
and `some k?` when present, `k?` being its truthy `apiKey` field if the file
parses and carries one; a key file is its raw content when present. -/
structure ApiEnv where
  anthropicApiKeyEnv : Option String
  memoryMcpConfig : Option (Option String)
  nlcConfig : Option (Option String)
  configAnthropicKeyFile : Option String
  anthropicKeyFile : Option String
deriving DecidableEq

/-- `resolveApiKey`: the environment variable first, then the two JSON
config files in order, then the two raw key files in order; `none` when
nothing is present. -/
def resolveApiKey (e : ApiEnv) : Option String :=
  if jsTruthy e.anthropicApiKeyEnv then e.anthropicApiKeyEnv
  else
    match e.memoryMcpConfig with
    | some (some k) => some k
    | _ =>
      match e.nlcConfig with
      | some (some k) => some k
      | _ =>
        match e.configAnthropicKeyFile with
        | some c => some (jsTrim c)
        | none =>
          match e.anthropicKeyFile with
          | some c => some (jsTrim c)
          | none => none

/-- The ordered candidate list the credential resolution walks, first hit
wins. -/
def credCandidates (e : ApiEnv) : List (Option String) :=
  [ if jsTruthy e.anthropicApiKeyEnv then e.anthropicApiKeyEnv else none
  , e.memoryMcpConfig.join
  , e.nlcConfig.join
  , e.configAnthropicKeyFile.map jsTrim
  , e.anthropicKeyFile.map jsTrim ]

/-- The body of a successful HTTP response: unparseable JSON (so that
`response.json()` rejects) or parsed JSON whose first content block carries
the given text, if any. -/
inductive HttpBody where
  | badJson
  | json (firstText : Option String)
deriving DecidableEq

/-- The behaviour of the single `fetch` call: the promise rejects
(`netError`) or resolves to a response with success flag `ok` and a body. -/
inductive NetResult where
  | netError
  | httpResp (ok : Bool) (body : HttpBody)
deriving DecidableEq

/-- `callSmallModel` (`install.ts` lines 854-875): no key resolves to
`null`; a rejected fetch or an unparseable body propagates as an exception
(`Except.error`); a non-success response resolves to `null`; otherwise the
first text block, with a falsy text giving `null`. -/
def callSmallModel (e : ApiEnv) (net : NetResult) :
    Except Unit (Option String) :=
  match resolveApiKey e with
  | none => .ok none
  | some key =>
    if key = "" then .ok none
    else
      match net with
      | .netError => .error ()
      | .httpResp ok body =>
        if ok = false then .ok none
        else
          match body with
          | .badJson => .error ()
          | .json t =>
            .ok (match t with
              | some s => if s = "" then none else some s
              | none => none)

/-- Promoting the classifier call's result to the outcome the calling hook
observes. -/
def outcomeOfCall (r : Except Unit (Option String)) : CallOutcome :=
  match r with
  | .error _ => .throws
  | .ok resp => .returns resp

/-- The dev-logger invocation with the classifier call resolved against a
credential environment and a network behaviour. -/
def devRunFull (st : FsState) (transcript : Option (List TLine))
    (sid : String) (e : ApiEnv) (net : NetResult)
    (dateStr timeStr : String) : FsState :=
  devRun st transcript sid (outcomeOfCall (callSmallModel e net)) dateStr timeStr

/-- A directory, as the sync hook sees it: an association list from file
name to file content (unique names). -/
def Dir : Type := List (String × String)

instance : DecidableEq Dir := by
  unfold Dir
  infer_instance

/-- Content of a named file in a directory, when present. -/
def dirGet (d : Dir) (n : String) : Option String :=
  match d with
  | [] => none
  | p :: rest => if p.1 = n then some p.2 else dirGet rest n

/-- Writing a named file (replace in place, or create at the end). -/
def dirSet (d : Dir) (n : String) (c : String) : Dir :=
  match d with
  | [] => [(n, c)]
  | p :: rest => if p.1 = n then (n, c) :: rest else p :: dirSet rest n c

/-- The fixed tracked names (`SYNC_FILES`). -/
def syncFilesList : List String := ["MEMORY.md", "session-handoff.md"]

/-- Whether a name matches the dated-log pattern `YYYY-MM-DD.md`
(`DEV_LOG_PATTERN`). -/
def isDevLogName (s : String) : Bool :=
  match s.toList with
  | [a, b, c, d, '-', e, f, '-', g, h, '.', 'm', 'd'] =>
    a.isDigit && b.isDigit && c.isDigit && d.isDigit &&
    e.isDigit && f.isDigit && g.isDigit && h.isDigit
  | _ => false

/-- `getFilesToSync`: the names present in a directory that are tracked. -/
def getFilesToSync (d : Dir) : List String :=
  (d.map fun p => p.1).filter fun f =>
    syncFilesList.contains f || isDevLogName f

/-- `copyIfDifferent(src, dst)` with the source's content and the
destination directory made explicit: no source file is a no-op; an absent or
different destination is overwritten.  Returns the new destination directory
and whether a copy happened. -/
def copyIfDifferent (src : Option String) (dstDir : Dir) (dstName : String) :
    Dir × Bool :=
  match src with
  | none => (dstDir, false)
  | some c =>
    match dirGet dstDir dstName with
    | none => (dirSet dstDir dstName c, true)
    | some dc => if dc = c then (dstDir, false) else (dirSet dstDir dstName c, true)

/-- The local working copy of the sync repository: its worktree and the tree
of its HEAD commit. -/
structure GitRepo where
  working : Dir
  head : Dir
deriving DecidableEq

/-- The operations a sync invocation performs, in order, for reasoning about
sequencing: a compare-and-maybe-copy of one tracked document (with whether a
copy happened), the rebase-pull, the staging, the commit and the push. -/
inductive SyncEv where
  | compareEv (name : String) (copied : Bool)
  | pullEv
  | addEv
  | commitEv
  | pushEv
deriving DecidableEq

/-- Modelled from the spec: `git pull --rebase` is external version-control
behaviour — it succeeds only when the worktree is clean and the remote is
reachable (`remote = some r`), making both the worktree and HEAD the remote
tree; every failure is caught (`gitPull` returns `false`) and leaves the
repository untouched. -/
def gitPull (remote : Option Dir) (g : GitRepo) : GitRepo × Bool :=
  if g.working = g.head then
    match remote with
    | some r => ({ working := r, head := r }, true)
    | none => (g, false)
  else (g, false)

/-- `gitPush` (`memory-sync.js` lines 85-109): pull, stage everything, and
only when the staged diff is non-empty (worktree differs from HEAD) commit
and push. -/
def gitPush (remote : Option Dir) (g : GitRepo) :
    GitRepo × Bool × List SyncEv :=
  let g1 := (gitPull remote g).1
  if g1.working = g1.head then
    (g1, true, [SyncEv.pullEv, SyncEv.addEv])
  else
    ({ working := g1.working, head := g1.working }, true,
      [SyncEv.pullEv, SyncEv.addEv, SyncEv.commitEv, SyncEv.pushEv])

/-- One direction of the file-sync loop: compare-and-copy each named file of
the source into the destination, counting copies and recording one compare
event per file. -/
def copyPhase (srcD : Dir) (dst : Dir) (names : List String) :
    Dir × Nat × List SyncEv :=
  match names with
  | [] => (dst, 0, [])
  | f :: rest =>
    let step := copyIfDifferent (dirGet srcD f) dst f
    let next := copyPhase srcD step.1 rest
    (next.1, (if step.2 then 1 else 0) + next.2.1,
      SyncEv.compareEv f step.2 :: next.2.2)

/-- `syncPush` (`memory-sync.js` lines 150-169): copy every tracked local
document into the repository worktree, then pull repo-only tracked documents
back into the local directory, then run the git push step.  Returns the new
repository, the new local directory, the copy count and the event trace. -/
def syncPush (remote : Option Dir) (g : GitRepo) (mem : Option Dir) :
    GitRepo × Option Dir × Nat × List SyncEv :=
  match mem with
  | none => (g, none, 0, [])
  | some m =>
    let files := getFilesToSync m
    let phase1 := copyPhase m g.working files
    let repoFiles := getFilesToSync phase1.1
    let backNames := repoFiles.filter fun f => !(files.contains f)
    let phase2 := copyPhase phase1.1 m backNames
    let pushed := gitPush remote { working := phase1.1, head := g.head }
    (pushed.1, some phase2.1, phase1.2.1 + phase2.2.1,
      phase1.2.2 ++ phase2.2.2 ++ pushed.2.2)

/-- The trace of a push invocation. -/
def syncPushTrace (remote : Option Dir) (g : GitRepo) (mem : Option Dir) :
    List SyncEv :=
  (syncPush remote g mem).2.2.2

/-- Whether, in a trace, a pull happens before any document compare: walking
the trace, no compare event may occur before the first pull event. -/
def pullBeforeAnyCompare (tr : List SyncEv) : Bool :=
  match tr with
  | [] => true
  | SyncEv.pullEv :: _ => true
  | SyncEv.compareEv _ _ :: _ => false
  | _ :: rest => pullBeforeAnyCompare rest

/-- The text one merge call appends to the daily log: its rendered entry
lines joined by newlines, plus the trailing newline of the write. -/
def renderCall (timeStr : String) (devLines : List String) : String :=
  String.intercalate "\n"
    (devLines.map fun line => "- **" ++ timeStr ++ "** — " ++ line) ++ "\n"

/-- A sequence of same-date merge calls folded over the daily log document;
each call is a `(timeStr, devLines)` pair. -/
def foldDailyCalls (dateStr : String) (file : Option String)
    (calls : List (String × List String)) : Option String :=
  calls.foldl (fun f c => dailyLogMerge dateStr c.1 c.2 f) file

/-- Demo filesystem state: both cursor maps at 2 for every session. -/
def demoState : FsState :=
  { devCursors := fun _ => 2, ctxCursors := fun _ => 2
    dailyLog := none, handoff := none }

/-- Demo already-consumed transcript prefix (two non-blank lines). -/
def demoOld : List TLine :=
  [TLine.user (.str "USER asks"), TLine.blank, TLine.assistant (.str "reply")]

/-- Demo appended transcript region (one tool-using assistant line). -/
def demoNew : List TLine :=
  [TLine.assistant (.arr [Block.toolUse (some "Write") (some "a.ts") none none])]

/-- Demo handoff document with one well-formed auto-captured section. -/
def demoHandoff : List Char :=
  ("intro\n<!-- AUTO-CAPTURED: 2025-01-01 09:00 -->\n- old\n<!-- END AUTO-CAPTURED -->\nhuman notes").toList

/-- Demo rendered replacement section. -/
def demoSection : List Char :=
  (renderAutoSection "2025-02-02 10:10" ["[DONE] Implemented X"]).toList

/-- Demo handoff document whose end marker precedes its start marker. -/
def demoDoubled : List Char :=
  ("<!-- END AUTO-CAPTURED -->\n<!-- AUTO-CAPTURED: 2024 -->").toList

/-- Demo same-date merge-call sequence. -/
def demoCalls : List (String × List String) :=
  [("09:00", ["Implemented login endpoint"]),
   ("10:30", ["Added input validation", "Tested validation flow"])]

/-- Demo tracked directory contents (repo side). -/
def demoRepoDir : Dir := [("MEMORY.md", "mem content"), ("2025-01-01.md", "log")]

/-- Demo clean repository whose worktree equals its HEAD. -/
def demoRepo : GitRepo := { working := demoRepoDir, head := demoRepoDir }

/-- Demo local memory directory differing from the repo. -/
def demoMemDiff : Dir := [("MEMORY.md", "changed content")]

/-- Demo credential environment with an environment-variable key. -/
def demoEnvWithKey : ApiEnv :=
  { anthropicApiKeyEnv := some "sk-demo", memoryMcpConfig := none
    nlcConfig := none, configAnthropicKeyFile := none, anthropicKeyFile := none }

/-- Demo credential environment with nothing present. -/
def demoEnvNoKey : ApiEnv :=
  { anthropicApiKeyEnv := none, memoryMcpConfig := none
    nlcConfig := none, configAnthropicKeyFile := none, anthropicKeyFile := none }

/-- The concatenation, in call order, of the rendered lines of a sequence of
merge calls. -/
def concatRenders (calls : List (String × List String)) : String :=
  match calls with
  | [] => ""
  | c :: rest => renderCall c.1 c.2 ++ concatRenders rest

theorem countSubstr_nil (pat : List Char) : countSubstr [] pat = 0 := rfl

theorem countSubstr_cons (c : Char) (t pat : List Char) :
    countSubstr (c :: t) pat =
      (if pat.isPrefixOf (c :: t) then 1 else 0) + countSubstr t pat := rfl

theorem head?_of_prefix {l₁ l₂ : List Char} (h : l₁ <+: l₂) (hne : l₁ ≠ []) :
    l₂.head? = l₁.head? := by
  obtain ⟨r, rfl⟩ := h
  cases l₁ with
  | nil => exact absurd rfl hne
  | cons a t => rfl

theorem not_prefix_of_head_ne {pat : List Char} {x : Char} {t : List Char}
    (p0 : Char) (h : pat.head? = some p0) (hne : p0 ≠ x) :
    ¬ pat <+: (x :: t) := by
  intro hp
  have hne' : pat ≠ [] := by
    intro hn
    rw [hn] at h
    exact Option.noConfusion h
  have := head?_of_prefix hp hne'
  rw [h] at this
  exact hne (Option.some.injEq _ _ ▸ this.symm :)

theorem countSubstr_pos_of_occurs (hay pat : List Char) (p : Nat)
    (hp : pat ≠ []) (hocc : pat <+: hay.drop p) : 1 ≤ countSubstr hay pat := by
  induction hay generalizing p with
  | nil =>
    rw [List.drop_nil] at hocc
    exact absurd (List.prefix_nil.mp hocc) hp
  | cons c t ih =>
    cases p with
    | zero =>
      rw [List.drop_zero] at hocc
      rw [countSubstr_cons, if_pos (List.isPrefixOf_iff_prefix.mpr hocc)]
      omega
    | succ q =>
      have h1 := ih q hocc
      rw [countSubstr_cons]
      omega

theorem two_le_countSubstr (hay pat : List Char) (p q : Nat) (hp : pat ≠ [])
    (hpq : p < q) (h1 : pat <+: hay.drop p) (h2 : pat <+: hay.drop q) :
    2 ≤ countSubstr hay pat := by
  induction hay generalizing p q with
  | nil =>
    rw [List.drop_nil] at h2
    exact absurd (List.prefix_nil.mp h2) hp
  | cons c t ih =>
    cases q with
    | zero => omega
    | succ q' =>
      cases p with
      | zero =>
        rw [List.drop_zero] at h1
        rw [countSubstr_cons, if_pos (List.isPrefixOf_iff_prefix.mpr h1)]
        have := countSubstr_pos_of_occurs t pat q' hp h2
        omega
      | succ p' =>
        have := ih p' q' (by omega) h1 h2
        rw [countSubstr_cons]
        omega

theorem countSubstr_eq_zero (hay pat : List Char)
    (h : ∀ i, ¬ pat <+: hay.drop i) : countSubstr hay pat = 0 := by
  induction hay with
  | nil => rfl
  | cons c t ih =>
    rw [countSubstr_cons]
    rw [if_neg (fun hp => h 0 (List.drop_zero _ ▸ List.isPrefixOf_iff_prefix.mp hp))]
    rw [Nat.zero_add]
    exact ih fun i => h (i + 1)

theorem listIdxOf_some_spec (hay pat : List Char) (i : Nat)
    (h : listIdxOf hay pat = some i) :
    pat <+: hay.drop i ∧ ∀ j, j < i → ¬ pat <+: hay.drop j := by
  induction hay generalizing i with
  | nil =>
    unfold listIdxOf at h
    by_cases hp : pat.isEmpty
    · rw [if_pos hp] at h
      obtain rfl : i = 0 := by
        have := Option.some.inj h
        omega
      refine ⟨?_, fun j hj => absurd hj (by omega)⟩
      rw [List.isEmpty_iff.mp hp]
      exact List.nil_prefix
    · rw [if_neg hp] at h
      exact Option.noConfusion h
  | cons c t ih =>
    unfold listIdxOf at h
    by_cases hp : pat.isPrefixOf (c :: t)
    · rw [if_pos hp] at h
      obtain rfl : i = 0 := by
        have := Option.some.inj h
        omega
      exact ⟨List.drop_zero _ ▸ List.isPrefixOf_iff_prefix.mp hp,
        fun j hj => absurd hj (by omega)⟩
    · rw [if_neg hp] at h
      cases hr : listIdxOf t pat with
      | none => rw [hr] at h; exact Option.noConfusion h
      | some i' =>
        rw [hr] at h
        simp only [Option.map_some'] at h
        have hi : i = i' + 1 := (Option.some.inj h).symm
        subst hi
        obtain ⟨h1, h2⟩ := ih i' hr
        refine ⟨h1, fun j hj => ?_⟩
        cases j with
        | zero =>
          rw [List.drop_zero]
          exact fun hc => hp (List.isPrefixOf_iff_prefix.mpr hc)
        | succ j' => exact h2 j' (by omega)

theorem listIdxOf_none_spec (hay pat : List Char)
    (h : listIdxOf hay pat = none) : ∀ j, ¬ pat <+: hay.drop j := by
  induction hay with
  | nil =>
    intro j hj
    unfold listIdxOf at h
    by_cases hp : pat.isEmpty
    · rw [if_pos hp] at h; exact Option.noConfusion h
    · rw [List.drop_nil] at hj
      exact hp (List.isEmpty_iff.mpr (List.prefix_nil.mp hj))
  | cons c t ih =>
    intro j hj
    unfold listIdxOf at h
    by_cases hp : pat.isPrefixOf (c :: t)
    · rw [if_pos hp] at h; exact Option.noConfusion h
    · rw [if_neg hp] at h
      cases hr : listIdxOf t pat with
      | some i' => rw [hr] at h; exact Option.noConfusion h
      | none =>
        cases j with
        | zero =>
          rw [List.drop_zero] at hj
          exact hp (List.isPrefixOf_iff_prefix.mpr hj)
        | succ j' => exact ih hr j' hj

theorem prefix_append_iff_of_le {pat x : List Char} (y : List Char)
    (h : pat.length ≤ x.length) : pat <+: x ++ y ↔ pat <+: x := by
  constructor
  · intro hp
    rw [List.prefix_iff_eq_take] at hp ⊢
    rw [hp, List.take_append_of_le_length h]
    rw [List.length_take]
    congr 1
    omega
  · intro hp
    exact hp.trans (List.prefix_append x y)

theorem countSubstr_append_of_no_straddle (a b pat : List Char)
    (hstr : ∀ k, 0 < k → k < pat.length →
      ¬((pat.take k) <:+ a ∧ (pat.drop k) <+: b)) :
    countSubstr (a ++ b) pat = countSubstr a pat + countSubstr b pat := by
  induction a with
  | nil => simp [countSubstr_nil]
  | cons c t ih =>
    have hstr' : ∀ k, 0 < k → k < pat.length →
        ¬((pat.take k) <:+ t ∧ (pat.drop k) <+: b) := by
      intro k hk1 hk2 hand
      exact hstr k hk1 hk2 ⟨hand.1.trans (List.suffix_cons c t), hand.2⟩
    rw [List.cons_append, countSubstr_cons, countSubstr_cons, ih hstr']
    have hiff : pat <+: c :: (t ++ b) ↔ pat <+: c :: t := by
      by_cases hlen : pat.length ≤ (c :: t).length
      · rw [← List.cons_append]
        exact prefix_append_iff_of_le b hlen
      · push_neg at hlen
        constructor
        · intro hpre
          exfalso
          rw [← List.cons_append] at hpre
          obtain ⟨r, hr⟩ := hpre
          have hk1 : 0 < (c :: t).length := by simp
          have hk2 : (c :: t).length < pat.length := hlen
          apply hstr (c :: t).length hk1 hk2
          have h1 : (pat ++ r).take (c :: t).length = pat.take (c :: t).length :=
            List.take_append_of_le_length (Nat.le_of_lt hk2)
          have h2 : ((c :: t) ++ b).take (c :: t).length = c :: t :=
            List.take_left (c :: t) b
          have htake : pat.take (c :: t).length = c :: t := by
            rw [← h1, hr, h2]
          constructor
          · rw [htake]
          · have h3 : (pat ++ r).drop (c :: t).length =
                pat.drop (c :: t).length ++ r :=
              List.drop_append_of_le_length (Nat.le_of_lt hk2)
            have h4 : ((c :: t) ++ b).drop (c :: t).length = b :=
              List.drop_left (c :: t) b
            exact ⟨r, by rw [← h3, hr, h4]⟩
        · intro hpre
          exact absurd hpre.length_le (Nat.not_le_of_lt hlen)
    by_cases hc : pat <+: c :: t
    · rw [if_pos (List.isPrefixOf_iff_prefix.mpr (hiff.mpr hc)),
        if_pos (List.isPrefixOf_iff_prefix.mpr hc)]
      omega
    · rw [if_neg fun hb0 => hc (hiff.mp (List.isPrefixOf_iff_prefix.mp hb0)),
        if_neg fun hb0 => hc (List.isPrefixOf_iff_prefix.mp hb0)]
      omega

theorem no_straddle_of_head (a b pat : List Char) (c0 : Char)
    (hb : b.head? = some c0)
    (hc : ∀ k, k < pat.length → 0 < k → pat[k]? ≠ some c0) :
    ∀ k, 0 < k → k < pat.length →
      ¬((pat.take k) <:+ a ∧ (pat.drop k) <+: b) := by
  intro k hk1 hk2 hand
  have hne : pat.drop k ≠ [] := by
    intro h0
    have := congrArg List.length h0
    simp at this
    omega
  have h1 : b.head? = (pat.drop k).head? := head?_of_prefix hand.2 hne
  rw [List.head?_drop] at h1
  exact hc k hk2 hk1 (h1 ▸ hb)

theorem no_straddle_of_last (a b pat : List Char) (d : Char)
    (ha : a.getLast? = some d) (hd : d ∉ pat) :
    ∀ k, 0 < k → k < pat.length →
      ¬((pat.take k) <:+ a ∧ (pat.drop k) <+: b) := by
  intro k hk1 hk2 hand
  have hlen : (pat.take k).length = k := by
    rw [List.length_take]
    omega
  obtain ⟨w, hw⟩ := hand.1
  have h1 : a.getLast? = (pat.take k).getLast? := by
    rw [← hw, List.getLast?_append]
    have h2 : (pat.take k).getLast? = pat[k - 1]? := by
      rw [List.getLast?_eq_getElem?, hlen, List.getElem?_take_of_lt (by omega)]
    rw [h2, List.getElem?_eq_getElem (by omega)]
    rfl
  have h2 : (pat.take k).getLast? = pat[k - 1]? := by
    rw [List.getLast?_eq_getElem?, hlen, List.getElem?_take_of_lt (by omega)]
  rw [h1, h2] at ha
  exact hd (List.getElem?_mem ha)

theorem countSubstr_take_of_idxOf (hay pat : List Char) (i : Nat)
    (hp : pat ≠ []) (h : listIdxOf hay pat = some i) :
    countSubstr (hay.take i) pat = 0 := by
  apply countSubstr_eq_zero
  intro j hj
  have hj' : pat <+: (hay.drop j).take (i - j) := by
    rw [← List.drop_take]
    exact hj
  have hocc : pat <+: hay.drop j := hj'.trans (List.take_prefix _ _)
  by_cases hji : j < i
  · exact (listIdxOf_some_spec hay pat i h).2 j hji hocc
  · have : i - j = 0 := by omega
    rw [this, List.take_zero] at hj'
    exact hp (List.prefix_nil.mp hj')

theorem startPat_ne_nil : startMarkerPat ≠ [] := by decide

theorem startPat_head : startMarkerPat.head? = some '<' := by decide

theorem startPat_no_inner_lt :
    ∀ k, k < startMarkerPat.length → 0 < k →
      startMarkerPat[k]? ≠ some '<' := by decide

theorem startPat_no_inner_nl :
    ∀ k, k < startMarkerPat.length → 0 < k →
      startMarkerPat[k]? ≠ some '\n' := by decide

theorem gt_not_mem_startPat : '>' ∉ startMarkerPat := by decide

theorem endPat_ne_nil : endMarkerStr ≠ [] := by decide

/-- C3 (amended): if the prior handoff content either contains no marker at
all or exactly one start and one end marker with the start before the end,
and the rendered section contains the start marker exactly once and is
bracket-delimited (it begins with `<` and ends with `>`), then the merged
document contains exactly one start marker: the merge never yields two
auto-captured sections. -/
theorem claim3_single_section (content sec : List Char)
    (hhead : sec.head? = some '<')
    (hlast : sec.getLast? = some '>')
    (hsec : countSubstr sec startMarkerPat = 1)
    (hcontent :
      (countSubstr content startMarkerPat = 0 ∧
        countSubstr content endMarkerStr = 0) ∨
      (countSubstr content startMarkerPat = 1 ∧
        countSubstr content endMarkerStr = 1 ∧
        ∀ s e, listIdxOf content startMarkerPat = some s →
          listIdxOf content endMarkerStr = some e → s < e)) :
    countSubstr (mergeAutoSection content sec) startMarkerPat = 1 := by
  rcases hcontent with ⟨hc0s, hc0e⟩ | ⟨hc1s, hc1e, horder⟩
  · -- no marker present: the prepend branch
    have hidxs : listIdxOf content startMarkerPat = none := by
      cases hidx : listIdxOf content startMarkerPat with
      | none => rfl
      | some i =>
        have hocc := (listIdxOf_some_spec content startMarkerPat i hidx).1
        have := countSubstr_pos_of_occurs content startMarkerPat i
          startPat_ne_nil hocc
        omega
    have hnostr := no_straddle_of_last sec ([] : List Char) startMarkerPat '>'
      hlast gt_not_mem_startPat
    by_cases hclen : content.length > 0
    · have hm : mergeAutoSection content sec = sec ++ ('\n' :: '\n' :: content) := by
        unfold mergeAutoSection
        rw [hidxs]
        rw [if_pos hclen]
      rw [hm]
      rw [countSubstr_append_of_no_straddle sec ('\n' :: '\n' :: content)
        startMarkerPat
        (no_straddle_of_last sec ('\n' :: '\n' :: content) startMarkerPat '>'
          hlast gt_not_mem_startPat)]
      have h1 : ¬ startMarkerPat <+: ('\n' :: ('\n' :: content)) :=
        not_prefix_of_head_ne '<' startPat_head (by decide)
      have h2 : ¬ startMarkerPat <+: ('\n' :: content) :=
        not_prefix_of_head_ne '<' startPat_head (by decide)
      rw [countSubstr_cons, countSubstr_cons,
        if_neg fun hb => h1 (List.isPrefixOf_iff_prefix.mp hb),
        if_neg fun hb => h2 (List.isPrefixOf_iff_prefix.mp hb)]
      omega
    · have hcnil : content = [] := by
        cases content with
        | nil => rfl
        | cons c t => simp at hclen
      subst hcnil
      have hm : mergeAutoSection [] sec = sec ++ ['\n'] := by
        unfold mergeAutoSection
        rw [hidxs]
        rfl
      rw [hm]
      rw [countSubstr_append_of_no_straddle sec ['\n'] startMarkerPat
        (no_straddle_of_last sec ['\n'] startMarkerPat '>'
          hlast gt_not_mem_startPat)]
      have h1 : ¬ startMarkerPat <+: ['\n'] :=
        not_prefix_of_head_ne '<' startPat_head (by decide)
      rw [countSubstr_cons,
        if_neg fun hb => h1 (List.isPrefixOf_iff_prefix.mp hb)]
      rw [countSubstr_nil]
      omega
  · -- one well-formed section: the replace branch
    cases hidxs : listIdxOf content startMarkerPat with
    | none =>
      have := countSubstr_eq_zero content startMarkerPat
        (listIdxOf_none_spec content startMarkerPat hidxs)
      omega
    | some s =>
      cases hidxe : listIdxOf content endMarkerStr with
      | none =>
        have := countSubstr_eq_zero content endMarkerStr
          (listIdxOf_none_spec content endMarkerStr hidxe)
        omega
      | some e =>
        have hse : s < e := horder s e hidxs hidxe
        have hm : mergeAutoSection content sec =
            content.take s ++ (sec ++ content.drop (e + endMarkerStr.length)) := by
          unfold mergeAutoSection
          rw [hidxs, hidxe]
          dsimp only
          rw [List.append_assoc]
        have hoccs := (listIdxOf_some_spec content startMarkerPat s hidxs).1
        have hbefore : countSubstr (content.take s) startMarkerPat = 0 :=
          countSubstr_take_of_idxOf content startMarkerPat s startPat_ne_nil hidxs
        have hafter :
            countSubstr (content.drop (e + endMarkerStr.length))
              startMarkerPat = 0 := by
          apply countSubstr_eq_zero
          intro q hq
          rw [List.drop_drop] at hq
          have hlen : 0 < endMarkerStr.length := by decide
          have h2 := two_le_countSubstr content startMarkerPat s
            (e + endMarkerStr.length + q) startPat_ne_nil (by omega) hoccs hq
          omega
        rw [hm]
        rw [countSubstr_append_of_no_straddle (content.take s)
          (sec ++ content.drop (e + endMarkerStr.length)) startMarkerPat
          (no_straddle_of_head (content.take s)
            (sec ++ content.drop (e + endMarkerStr.length)) startMarkerPat '<'
            (by rw [List.head?_append, hhead]; rfl) startPat_no_inner_lt)]
        rw [countSubstr_append_of_no_straddle sec
          (content.drop (e + endMarkerStr.length)) startMarkerPat
          (no_straddle_of_last sec (content.drop (e + endMarkerStr.length))
            startMarkerPat '>' hlast gt_not_mem_startPat)]
        omega

/-- C2: when the handoff document contains the start marker (first occurrence
at `s`) and the end marker (first occurrence at `e`) with the start before
the end, the merge replaces exactly the range from the start marker through
the end marker inclusive: the document is the unchanged prefix before the
start marker, then the new section, then the unchanged suffix after the end
marker. -/
theorem claim2_merge_frame (content sec : List Char) (s e : Nat)
    (hs : listIdxOf content startMarkerPat = some s)
    (he : listIdxOf content endMarkerStr = some e)
    (hse : s < e) :
    mergeAutoSection content sec =
      content.take s ++ sec ++ content.drop (e + endMarkerStr.length) ∧
    (mergeAutoSection content sec).take s = content.take s ∧
    (mergeAutoSection content sec).drop (s + sec.length) =
      content.drop (e + endMarkerStr.length) := by
  have hm : mergeAutoSection content sec =
      content.take s ++ sec ++ content.drop (e + endMarkerStr.length) := by
    unfold mergeAutoSection
    rw [hs, he]
  have hsl : s ≤ content.length := by
    have hocc := (listIdxOf_some_spec content startMarkerPat s hs).1
    have hne : content.drop s ≠ [] := by
      intro h0
      rw [h0] at hocc
      exact startPat_ne_nil (List.prefix_nil.mp hocc)
    by_cases hcs : s ≤ content.length
    · exact hcs
    · exact absurd (List.drop_eq_nil_of_le (by omega)) hne
  have hlen : (content.take s).length = s := by
    rw [List.length_take]
    omega
  refine ⟨hm, ?_, ?_⟩
  · rw [hm, List.append_assoc]
    exact List.take_left' hlen
  · rw [hm]
    have hlen2 : (content.take s ++ sec).length = s + sec.length := by
      rw [List.length_append, hlen]
    exact List.drop_left' hlen2

theorem devGetLatestExchange_text (t : List TLine) (k : Nat) :
    (devGetLatestExchange t k).text =
      String.intercalate "\n" (((nbLines t).drop k).flatMap devLineParts) := by
  unfold devGetLatestExchange
  dsimp only
  split
  · rename_i h
    rw [List.isEmpty_iff.mp h]
    rfl
  · rfl

theorem devGetLatestExchange_hasToolUse (t : List TLine) (k : Nat) :
    (devGetLatestExchange t k).hasToolUse =
      ((nbLines t).drop k).any lineHasToolUse := by
  unfold devGetLatestExchange
  dsimp only
  split
  · rename_i h
    rw [List.isEmpty_iff.mp h]
    rfl
  · rfl

theorem devGetLatestExchange_totalLines (t : List TLine) (k : Nat) :
    (devGetLatestExchange t k).totalLines = (nbLines t).length := by
  unfold devGetLatestExchange
  dsimp only
  split <;> rfl

theorem ctxGetLatestExchange_text (t : List TLine) (k : Nat) :
    (ctxGetLatestExchange t k).text =
      String.intercalate "\n" (((nbLines t).drop k).flatMap ctxLineParts) := by
  unfold ctxGetLatestExchange
  dsimp only
  split
  · rename_i h
    rw [List.isEmpty_iff.mp h]
    rfl
  · rfl

theorem ctxGetLatestExchange_totalLines (t : List TLine) (k : Nat) :
    (ctxGetLatestExchange t k).totalLines = (nbLines t).length := by
  unfold ctxGetLatestExchange
  dsimp only
  split <;> rfl

theorem nbLines_append (a b : List TLine) :
    nbLines (a ++ b) = nbLines a ++ nbLines b := by
  unfold nbLines
  exact List.filter_append _ _

theorem devRunAfterCursor_cases (st : FsState) (r : ExchangeResult)
    (o : CallOutcome) (d tm : String) :
    devRunAfterCursor st r o d tm = st ∨
    ∃ dl, devRunAfterCursor st r o d tm = { st with dailyLog := dl } := by
  unfold devRunAfterCursor
  split
  · exact Or.inl rfl
  · cases o with
    | throws => exact Or.inl rfl
    | returns resp =>
      cases resp with
      | none => exact Or.inl rfl
      | some response =>
        dsimp only
        split
        · exact Or.inl rfl
        · split
          · exact Or.inl rfl
          · exact Or.inr ⟨_, rfl⟩

theorem ctxRunAfterCursor_cases (st : FsState) (r : ExchangeResult)
    (o : CallOutcome) (dts : String) :
    ctxRunAfterCursor st r o dts = st ∨
    ∃ ho, ctxRunAfterCursor st r o dts = { st with handoff := some ho } := by
  unfold ctxRunAfterCursor
  split
  · exact Or.inl rfl
  · cases o with
    | throws => exact Or.inl rfl
    | returns resp =>
      cases resp with
      | none => exact Or.inl rfl
      | some response =>
        dsimp only
        split
        · exact Or.inl rfl
        · split
          · exact Or.inl rfl
          · exact Or.inr ⟨_, rfl⟩

theorem devRunAfterCursor_devCursors (st : FsState) (r : ExchangeResult)
    (o : CallOutcome) (d tm : String) :
    (devRunAfterCursor st r o d tm).devCursors = st.devCursors := by
  rcases devRunAfterCursor_cases st r o d tm with h | ⟨dl, h⟩ <;> rw [h]

theorem devRunAfterCursor_ctxCursors (st : FsState) (r : ExchangeResult)
    (o : CallOutcome) (d tm : String) :
    (devRunAfterCursor st r o d tm).ctxCursors = st.ctxCursors := by
  rcases devRunAfterCursor_cases st r o d tm with h | ⟨dl, h⟩ <;> rw [h]

theorem devRunAfterCursor_handoff (st : FsState) (r : ExchangeResult)
    (o : CallOutcome) (d tm : String) :
    (devRunAfterCursor st r o d tm).handoff = st.handoff := by
  rcases devRunAfterCursor_cases st r o d tm with h | ⟨dl, h⟩ <;> rw [h]

theorem ctxRunAfterCursor_ctxCursors (st : FsState) (r : ExchangeResult)
    (o : CallOutcome) (dts : String) :
    (ctxRunAfterCursor st r o dts).ctxCursors = st.ctxCursors := by
  rcases ctxRunAfterCursor_cases st r o dts with h | ⟨ho, h⟩ <;> rw [h]

theorem ctxRunAfterCursor_devCursors (st : FsState) (r : ExchangeResult)
    (o : CallOutcome) (dts : String) :
    (ctxRunAfterCursor st r o dts).devCursors = st.devCursors := by
  rcases ctxRunAfterCursor_cases st r o dts with h | ⟨ho, h⟩ <;> rw [h]

theorem ctxRunAfterCursor_dailyLog (st : FsState) (r : ExchangeResult)
    (o : CallOutcome) (dts : String) :
    (ctxRunAfterCursor st r o dts).dailyLog = st.dailyLog := by
  rcases ctxRunAfterCursor_cases st r o dts with h | ⟨ho, h⟩ <;> rw [h]

theorem devRun_some_eq (st : FsState) (t : List TLine) (sid : String)
    (o : CallOutcome) (d tm : String) :
    devRun st (some t) sid o d tm =
      devRunAfterCursor
        (setDevCursor st sid (devGetLatestExchange t (st.devCursors sid)).totalLines)
        (devGetLatestExchange t (st.devCursors sid)) o d tm := rfl

theorem ctxRun_some_eq (st : FsState) (t : List TLine) (sid : String)
    (o : CallOutcome) (dts : String) :
    ctxRun st (some t) sid o dts =
      ctxRunAfterCursor
        (setCtxCursor st sid (ctxGetLatestExchange t (st.ctxCursors sid)).totalLines)
        (ctxGetLatestExchange t (st.ctxCursors sid)) o dts := rfl

theorem devRun_devCursors_sid (st : FsState) (t : List TLine) (sid : String)
    (o : CallOutcome) (d tm : String) :
    (devRun st (some t) sid o d tm).devCursors sid = (nbLines t).length := by
  rw [devRun_some_eq, devRunAfterCursor_devCursors]
  show (if sid = sid then _ else _) = _
  rw [if_pos rfl, devGetLatestExchange_totalLines]

theorem ctxRun_ctxCursors_sid (st : FsState) (t : List TLine) (sid : String)
    (o : CallOutcome) (dts : String) :
    (ctxRun st (some t) sid o dts).ctxCursors sid = (nbLines t).length := by
  rw [ctxRun_some_eq, ctxRunAfterCursor_ctxCursors]
  show (if sid = sid then _ else _) = _
  rw [if_pos rfl, ctxGetLatestExchange_totalLines]

theorem devRun_handoff (st : FsState) (tr : Option (List TLine)) (sid : String)
    (o : CallOutcome) (d tm : String) :
    (devRun st tr sid o d tm).handoff = st.handoff := by
  cases tr with
  | none => rfl
  | some t => rw [devRun_some_eq, devRunAfterCursor_handoff]; rfl

theorem devRun_ctxCursors (st : FsState) (tr : Option (List TLine)) (sid : String)
    (o : CallOutcome) (d tm : String) :
    (devRun st tr sid o d tm).ctxCursors = st.ctxCursors := by
  cases tr with
  | none => rfl
  | some t => rw [devRun_some_eq, devRunAfterCursor_ctxCursors]; rfl

theorem ctxRun_dailyLog (st : FsState) (tr : Option (List TLine)) (sid : String)
    (o : CallOutcome) (dts : String) :
    (ctxRun st tr sid o dts).dailyLog = st.dailyLog := by
  cases tr with
  | none => rfl
  | some t => rw [ctxRun_some_eq, ctxRunAfterCursor_dailyLog]; rfl

theorem ctxRun_devCursors (st : FsState) (tr : Option (List TLine)) (sid : String)
    (o : CallOutcome) (dts : String) :
    (ctxRun st tr sid o dts).devCursors = st.devCursors := by
  cases tr with
  | none => rfl
  | some t => rw [ctxRun_some_eq, ctxRunAfterCursor_devCursors]; rfl

theorem setDevCursor_self (st : FsState) (sid : String) (v : Nat)
    (h : st.devCursors sid = v) : setDevCursor st sid v = st := by
  unfold setDevCursor
  cases st with
  | mk dc cc dl ho =>
    have hf : (fun s => if s = sid then v else dc s) = dc := by
      funext s
      by_cases hs : s = sid
      · subst hs
        rw [if_pos rfl]
        exact h.symm
      · rw [if_neg hs]
    simp only at hf ⊢
    rw [hf]

theorem setCtxCursor_self (st : FsState) (sid : String) (v : Nat)
    (h : st.ctxCursors sid = v) : setCtxCursor st sid v = st := by
  unfold setCtxCursor
  cases st with
  | mk dc cc dl ho =>
    have hf : (fun s => if s = sid then v else cc s) = cc := by
      funext s
      by_cases hs : s = sid
      · subst hs
        rw [if_pos rfl]
        exact h.symm
      · rw [if_neg hs]
    simp only at hf ⊢
    rw [hf]

theorem devRun_noNew (st : FsState) (t' : List TLine) (sid : String)
    (o : CallOutcome) (d tm : String)
    (h : st.devCursors sid = (nbLines t').length) :
    devRun st (some t') sid o d tm = st := by
  have hres : devGetLatestExchange t' (st.devCursors sid) =
      { text := "", hasToolUse := false, totalLines := (nbLines t').length } := by
    unfold devGetLatestExchange
    dsimp only
    rw [h, List.drop_length]
    rfl
  rw [devRun_some_eq, hres]
  show devRunAfterCursor (setDevCursor st sid (nbLines t').length) { text := "", hasToolUse := false, totalLines := (nbLines t').length } o d tm = st
  rw [setDevCursor_self st sid _ h]
  unfold devRunAfterCursor
  rw [if_pos ⟨rfl, by show ("" : String).length < 100; decide⟩]

theorem ctxRun_noNew (st : FsState) (t' : List TLine) (sid : String)
    (o : CallOutcome) (dts : String)
    (h : st.ctxCursors sid = (nbLines t').length) :
    ctxRun st (some t') sid o dts = st := by
  have hres : ctxGetLatestExchange t' (st.ctxCursors sid) =
      { text := "", hasToolUse := false, totalLines := (nbLines t').length } := by
    unfold ctxGetLatestExchange
    dsimp only
    rw [h, List.drop_length]
    rfl
  rw [ctxRun_some_eq, hres]
  show ctxRunAfterCursor (setCtxCursor st sid (nbLines t').length) { text := "", hasToolUse := false, totalLines := (nbLines t').length } o dts = st
  rw [setCtxCursor_self st sid _ h]
  unfold ctxRunAfterCursor
  rw [if_pos ⟨rfl, by show ("" : String).length < 100; decide⟩]

theorem devRunAfterCursor_noRecord (st : FsState) (r : ExchangeResult)
    (o : CallOutcome) (d tm : String)
    (h : o = CallOutcome.throws ∨ o = CallOutcome.returns none) :
    devRunAfterCursor st r o d tm = st := by
  unfold devRunAfterCursor
  split
  · rfl
  · rcases h with rfl | rfl <;> rfl

theorem ctxRunAfterCursor_noRecord (st : FsState) (r : ExchangeResult)
    (o : CallOutcome) (dts : String)
    (h : o = CallOutcome.throws ∨ o = CallOutcome.returns none) :
    ctxRunAfterCursor st r o dts = st := by
  unfold ctxRunAfterCursor
  split
  · rfl
  · rcases h with rfl | rfl <;> rfl

theorem devRunAfterCursor_sentinel (st : FsState) (r : ExchangeResult)
    (d tm resp : String)
    (h : jsTrim resp = "NONE" ∨ jsStartsWith (jsTrim resp) "NONE") :
    devRunAfterCursor st r (CallOutcome.returns (some resp)) d tm = st := by
  unfold devRunAfterCursor
  split
  · rfl
  · dsimp only
    rw [if_pos (Or.inr h)]

theorem ctxRunAfterCursor_sentinel (st : FsState) (r : ExchangeResult)
    (dts resp : String)
    (h : jsTrim resp = "NONE" ∨ jsStartsWith (jsTrim resp) "NONE") :
    ctxRunAfterCursor st r (CallOutcome.returns (some resp)) dts = st := by
  unfold ctxRunAfterCursor
  split
  · rfl
  · dsimp only
    rw [if_pos (Or.inr h)]

theorem dailyLogMerge_some (d tm : String) (ls : List String) (x : String)
    (h : ls ≠ []) :
    dailyLogMerge d tm ls (some x) = some (x ++ renderCall tm ls) := by
  unfold dailyLogMerge renderCall
  rw [if_neg fun hb => h (List.isEmpty_iff.mp hb)]
  dsimp only [Option.getD]
  rw [String.append_assoc]

theorem dailyLogMerge_new (d tm : String) (ls : List String) (h : ls ≠ []) :
    dailyLogMerge d tm ls none = some (dailyHeader d ++ renderCall tm ls) := by
  unfold dailyLogMerge renderCall
  rw [if_neg fun hb => h (List.isEmpty_iff.mp hb)]
  dsimp only [Option.getD]
  rw [String.append_assoc]

theorem foldDailyCalls_some (d : String) (calls : List (String × List String))
    (h : ∀ c ∈ calls, c.2 ≠ []) :
    ∀ x, foldDailyCalls d (some x) calls = some (x ++ concatRenders calls) := by
  induction calls with
  | nil =>
    intro x
    unfold foldDailyCalls concatRenders
    rw [List.foldl_nil, String.append_empty]
  | cons c cs ih =>
    intro x
    unfold foldDailyCalls
    rw [List.foldl_cons, dailyLogMerge_some d c.1 c.2 x (h c (by simp))]
    have := ih (fun y hy => h y (by simp [hy])) (x ++ renderCall c.1 c.2)
    unfold foldDailyCalls at this
    rw [this, String.append_assoc]
    rfl

/-- C4: an append-only daily log — a sequence of same-date merge calls with
non-empty classified entries produces exactly the date header followed by
the concatenation, in call order, of each call's rendered
`- **HH:MM** — <entry>` lines (the file being created with the header on
the first write); and each individual merge call extends the prior content
by pure appending, never altering a prior line. -/
theorem claim4_append_only_log (dateStr : String)
    (calls : List (String × List String)) (hne : calls ≠ [])
    (hall : ∀ c ∈ calls, c.2 ≠ []) :
    foldDailyCalls dateStr none calls =
      some (dailyHeader dateStr ++ concatRenders calls) ∧
    ∀ prior tm ls, ls ≠ [] →
      dailyLogMerge dateStr tm ls (some prior) =
        some (prior ++ renderCall tm ls) := by
  constructor
  · cases calls with
    | nil => exact absurd rfl hne
    | cons c cs =>
      unfold foldDailyCalls
      rw [List.foldl_cons, dailyLogMerge_new dateStr c.1 c.2 (hall c (by simp))]
      have := foldDailyCalls_some dateStr cs (fun y hy => hall y (by simp [hy]))
        (dailyHeader dateStr ++ renderCall c.1 c.2)
      unfold foldDailyCalls at this
      rw [this, String.append_assoc]
      rfl
  · intro prior tm ls h
    exact dailyLogMerge_some dateStr tm ls prior h

theorem claim4_witness :
    demoCalls ≠ [] ∧ (∀ c ∈ demoCalls, c.2 ≠ []) ∧
    foldDailyCalls "2025-03-03" none demoCalls =
      some (dailyHeader "2025-03-03" ++ concatRenders demoCalls) :=
  ⟨by decide, by decide,
    (claim4_append_only_log "2025-03-03" demoCalls (by decide) (by decide)).1⟩

/-- C1: with the stored cursor at the non-blank line count of the
already-consumed transcript prefix, a run over the grown transcript extracts
exactly the appended region (its text and tool-use flag agree with
extracting the appended region alone from offset 0, so no old line is
re-emitted), computes the offset `k + M`, and persists exactly that cursor
value. -/
theorem claim1_no_double_count (st : FsState) (old new : List TLine)
    (sid : String) (o : CallOutcome) (d tm : String)
    (hk : st.devCursors sid = (nbLines old).length) :
    (devGetLatestExchange (old ++ new) (st.devCursors sid)).text =
      (devGetLatestExchange new 0).text ∧
    (devGetLatestExchange (old ++ new) (st.devCursors sid)).hasToolUse =
      (devGetLatestExchange new 0).hasToolUse ∧
    (devGetLatestExchange (old ++ new) (st.devCursors sid)).totalLines =
      (nbLines old).length + (nbLines new).length ∧
    (devRun st (some (old ++ new)) sid o d tm).devCursors sid =
      (nbLines old).length + (nbLines new).length := by
  have hdrop : (nbLines (old ++ new)).drop (st.devCursors sid) = nbLines new := by
    rw [hk, nbLines_append, List.drop_left]
  refine ⟨?_, ?_, ?_, ?_⟩
  · rw [devGetLatestExchange_text, devGetLatestExchange_text, hdrop,
      List.drop_zero]
  · rw [devGetLatestExchange_hasToolUse, devGetLatestExchange_hasToolUse,
      hdrop, List.drop_zero]
  · rw [devGetLatestExchange_totalLines, nbLines_append, List.length_append]
  · rw [devRun_devCursors_sid, nbLines_append, List.length_append]

theorem claim1_witness :
    demoState.devCursors "s1" = (nbLines demoOld).length ∧
    (devRun demoState (some (demoOld ++ demoNew)) "s1"
        (CallOutcome.returns none) "2025-03-03" "09:00").devCursors "s1" =
      (nbLines demoOld).length + (nbLines demoNew).length :=
  ⟨by decide,
    (claim1_no_double_count demoState demoOld demoNew "s1"
      (CallOutcome.returns none) "2025-03-03" "09:00" (by decide)).2.2.2⟩

theorem claim2_witness :
    listIdxOf demoHandoff startMarkerPat = some 6 ∧
    listIdxOf demoHandoff endMarkerStr = some 53 ∧ 6 < 53 ∧
    mergeAutoSection demoHandoff demoSection =
      demoHandoff.take 6 ++ demoSection ++
        demoHandoff.drop (53 + endMarkerStr.length) :=
  ⟨by decide, by decide, by decide,
    (claim2_merge_frame demoHandoff demoSection 6 53
      (by decide) (by decide) (by decide)).1⟩

/-- C3 counterexample: the claim quantifies over every prior document
content, but merging into a document whose end marker precedes its start
marker leaves two start markers in the result (the replace branch replaces
the range from the first start marker through the first end marker, which
here does not cover the stray start marker). -/
theorem claim3_counterexample :
    countSubstr (mergeAutoSection demoDoubled demoSection) startMarkerPat
      = 2 := by decide

theorem claim3_witness :
    demoSection.head? = some '<' ∧
    demoSection.getLast? = some '>' ∧
    countSubstr demoSection startMarkerPat = 1 ∧
    (countSubstr demoHandoff startMarkerPat = 1 ∧
      countSubstr demoHandoff endMarkerStr = 1 ∧
      ∀ s e, listIdxOf demoHandoff startMarkerPat = some s →
        listIdxOf demoHandoff endMarkerStr = some e → s < e) ∧
    countSubstr (mergeAutoSection demoHandoff demoSection) startMarkerPat
      = 1 := by
  have horder : ∀ s e, listIdxOf demoHandoff startMarkerPat = some s →
      listIdxOf demoHandoff endMarkerStr = some e → s < e := by
    intro s e hs he
    have h6 : listIdxOf demoHandoff startMarkerPat = some 6 := by decide
    have h53 : listIdxOf demoHandoff endMarkerStr = some 53 := by decide
    rw [h6] at hs
    rw [h53] at he
    cases hs
    cases he
    omega
  refine ⟨by decide, by decide, by decide, ⟨by decide, by decide, horder⟩, ?_⟩
  exact claim3_single_section demoHandoff demoSection (by decide) (by decide)
    (by decide) (Or.inr ⟨by decide, by decide, horder⟩)

/-- C5: when the classifier response is `null`, exactly `"NONE"` after
trimming, or begins with `"NONE"` after trimming, neither hook writes any
document — the daily log and the handoff document are untouched — yet each
hook still sets its cursor to the newly computed offset. -/
theorem claim5_sentinel_short_circuit (st : FsState) (t : List TLine)
    (sid : String) (resp : Option String) (d tm dts : String)
    (h : resp = none ∨ ∃ r, resp = some r ∧
      (jsTrim r = "NONE" ∨ jsStartsWith (jsTrim r) "NONE")) :
    (devRun st (some t) sid (CallOutcome.returns resp) d tm).dailyLog =
      st.dailyLog ∧
    (devRun st (some t) sid (CallOutcome.returns resp) d tm).handoff =
      st.handoff ∧
    (devRun st (some t) sid (CallOutcome.returns resp) d tm).devCursors sid =
      (devGetLatestExchange t (st.devCursors sid)).totalLines ∧
    (ctxRun st (some t) sid (CallOutcome.returns resp) dts).handoff =
      st.handoff ∧
    (ctxRun st (some t) sid (CallOutcome.returns resp) dts).dailyLog =
      st.dailyLog ∧
    (ctxRun st (some t) sid (CallOutcome.returns resp) dts).ctxCursors sid =
      (ctxGetLatestExchange t (st.ctxCursors sid)).totalLines := by
  have hdev : devRun st (some t) sid (CallOutcome.returns resp) d tm =
      setDevCursor st sid (devGetLatestExchange t (st.devCursors sid)).totalLines := by
    rw [devRun_some_eq]
    rcases h with rfl | ⟨r, rfl, hr⟩
    · exact devRunAfterCursor_noRecord _ _ _ _ _ (Or.inr rfl)
    · exact devRunAfterCursor_sentinel _ _ _ _ r hr
  have hctx : ctxRun st (some t) sid (CallOutcome.returns resp) dts =
      setCtxCursor st sid (ctxGetLatestExchange t (st.ctxCursors sid)).totalLines := by
    rw [ctxRun_some_eq]
    rcases h with rfl | ⟨r, rfl, hr⟩
    · exact ctxRunAfterCursor_noRecord _ _ _ _ (Or.inr rfl)
    · exact ctxRunAfterCursor_sentinel _ _ _ r hr
  rw [hdev, hctx]
  refine ⟨rfl, rfl, ?_, rfl, rfl, ?_⟩
  · show (if sid = sid then _ else _) = _
    rw [if_pos rfl]
  · show (if sid = sid then _ else _) = _
    rw [if_pos rfl]

theorem claim5_witness :
    ((some "NONE — nothing meaningful" = (none : Option String)) ∨
      ∃ r, some "NONE — nothing meaningful" = some r ∧
        (jsTrim r = "NONE" ∨ jsStartsWith (jsTrim r) "NONE")) ∧
    (devRun demoState (some demoNew) "s1"
        (CallOutcome.returns (some "NONE — nothing meaningful")) "2025-03-03"
        "09:00").dailyLog = demoState.dailyLog :=
  ⟨Or.inr ⟨_, rfl, Or.inr (by decide)⟩,
    (claim5_sentinel_short_circuit demoState demoNew "s1"
      (some "NONE — nothing meaningful") "2025-03-03" "09:00" "2025-03-03 09:00"
      (Or.inr ⟨_, rfl, Or.inr (by decide)⟩)).1⟩

/-- C8: if the transcript gains no new non-blank line between two runs, the
second run of each hook is a complete no-op: the resulting state — documents
and cursor map alike — equals the state after the first run. -/
theorem claim8_second_run_noop (st : FsState) (t t' u u' : List TLine)
    (sid : String) (o1 o2 p1 p2 : CallOutcome)
    (d1 tm1 d2 tm2 dt1 dt2 : String)
    (ht : nbLines t' = nbLines t) (hu : nbLines u' = nbLines u) :
    devRun (devRun st (some t) sid o1 d1 tm1) (some t') sid o2 d2 tm2 =
      devRun st (some t) sid o1 d1 tm1 ∧
    ctxRun (ctxRun st (some u) sid p1 dt1) (some u') sid p2 dt2 =
      ctxRun st (some u) sid p1 dt1 := by
  constructor
  · exact devRun_noNew _ t' sid o2 d2 tm2
      (by rw [devRun_devCursors_sid, ht])
  · exact ctxRun_noNew _ u' sid p2 dt2
      (by rw [ctxRun_ctxCursors_sid, hu])

theorem claim8_witness :
    nbLines (demoOld ++ [TLine.blank]) = nbLines demoOld ∧
    devRun (devRun demoState (some demoOld) "s1" (CallOutcome.returns none)
        "2025-03-03" "09:00") (some (demoOld ++ [TLine.blank])) "s1"
        (CallOutcome.returns none) "2025-03-03" "09:05" =
      devRun demoState (some demoOld) "s1" (CallOutcome.returns none)
        "2025-03-03" "09:00" :=
  ⟨by decide,
    (claim8_second_run_noop demoState demoOld (demoOld ++ [TLine.blank])
      demoOld demoOld "s1" (CallOutcome.returns none) (CallOutcome.returns none)
      (CallOutcome.returns none) (CallOutcome.returns none) "2025-03-03" "09:00"
      "2025-03-03" "09:05" "d1" "d2" (by decide) rfl).1⟩

theorem copyIfDifferent_eq_noop (c : String) (dst : Dir) (n : String)
    (h : dirGet dst n = some c) : copyIfDifferent (some c) dst n = (dst, false) := by
  unfold copyIfDifferent
  rw [h]
  dsimp only
  rw [if_pos rfl]

theorem copyPhase_noop (srcD dst : Dir) (names : List String)
    (h : ∀ f ∈ names, dirGet dst f = dirGet srcD f) :
    copyPhase srcD dst names =
      (dst, 0, names.map fun f => SyncEv.compareEv f false) := by
  induction names with
  | nil => rfl
  | cons f rest ih =>
    have hcopy : copyIfDifferent (dirGet srcD f) dst f = (dst, false) := by
      cases hsf : dirGet srcD f with
      | none => rfl
      | some c =>
        exact copyIfDifferent_eq_noop c dst f (by rw [h f (by simp), hsf])
    unfold copyPhase
    rw [hcopy]
    dsimp only
    rw [ih fun x hx => h x (by simp [hx])]
    rfl

theorem copyPhase_trace_compares (srcD : Dir) (names : List String) :
    ∀ dst, ∀ ev ∈ (copyPhase srcD dst names).2.2,
      ∃ f b, ev = SyncEv.compareEv f b := by
  induction names with
  | nil =>
    intro dst ev hev
    simp [copyPhase] at hev
  | cons f rest ih =>
    intro dst ev hev
    unfold copyPhase at hev
    dsimp only at hev
    rw [List.mem_cons] at hev
    rcases hev with rfl | hev
    · exact ⟨f, _, rfl⟩
    · exact ih _ ev hev

theorem gitPush_clean_trace (remote : Option Dir) (w : Dir) :
    (gitPush remote { working := w, head := w }).2.2 =
      [SyncEv.pullEv, SyncEv.addEv] := by
  unfold gitPush gitPull
  dsimp only
  rw [if_pos rfl]
  cases remote with
  | some r =>
    dsimp only
    rw [if_pos rfl]
  | none =>
    dsimp only
    rw [if_pos rfl]

theorem gitPush_trace_shape (remote : Option Dir) (g : GitRepo) :
    (gitPush remote g).2.2 = [SyncEv.pullEv, SyncEv.addEv] ∨
    (gitPush remote g).2.2 =
      [SyncEv.pullEv, SyncEv.addEv, SyncEv.commitEv, SyncEv.pushEv] := by
  unfold gitPush
  dsimp only
  split
  · exact Or.inl rfl
  · exact Or.inr rfl

theorem syncPush_trace_eq (remote : Option Dir) (g : GitRepo) (m : Dir) :
    syncPushTrace remote g (some m) =
      (copyPhase m g.working (getFilesToSync m)).2.2 ++
      (copyPhase (copyPhase m g.working (getFilesToSync m)).1 m
        ((getFilesToSync (copyPhase m g.working (getFilesToSync m)).1).filter
          fun f => !((getFilesToSync m).contains f))).2.2 ++
      (gitPush remote
        { working := (copyPhase m g.working (getFilesToSync m)).1,
          head := g.head }).2.2 := rfl

/-- C6: a document whose repository copy is byte-identical to its local copy
is never copied by a push (the compare is a strict no-op); and when the
repository starts clean and every tracked local document is identical to its
repository copy, the push stage stages nothing and creates no commit. -/
theorem claim6_sync_noop (remote : Option Dir) (g : GitRepo) (m : Dir)
    (hclean : g.working = g.head)
    (hsame : ∀ f ∈ getFilesToSync m, dirGet g.working f = dirGet m f) :
    (∀ (dst : Dir) (n c : String), dirGet dst n = some c →
      copyIfDifferent (some c) dst n = (dst, false)) ∧
    SyncEv.commitEv ∉ syncPushTrace remote g (some m) := by
  constructor
  · intro dst n c h
    exact copyIfDifferent_eq_noop c dst n h
  · have hphase1 : copyPhase m g.working (getFilesToSync m) =
        (g.working, 0, (getFilesToSync m).map fun f => SyncEv.compareEv f false) :=
      copyPhase_noop m g.working (getFilesToSync m) hsame
    rw [syncPush_trace_eq, hphase1]
    dsimp only
    intro hmem
    rw [List.mem_append, List.mem_append] at hmem
    rcases hmem with (hmem | hmem) | hmem
    · rw [List.mem_map] at hmem
      obtain ⟨f, _, hf⟩ := hmem
      exact SyncEv.noConfusion hf
    · obtain ⟨f, b, hf⟩ := copyPhase_trace_compares g.working _ m _ hmem
      exact SyncEv.noConfusion hf
    · rw [hclean, gitPush_clean_trace] at hmem
      simp at hmem

theorem claim6_witness :
    demoRepo.working = demoRepo.head ∧
    (∀ f ∈ getFilesToSync demoRepoDir,
      dirGet demoRepo.working f = dirGet demoRepoDir f) ∧
    SyncEv.commitEv ∉ syncPushTrace none demoRepo (some demoRepoDir) :=
  ⟨rfl, by decide,
    (claim6_sync_noop none demoRepo demoRepoDir rfl (by decide)).2⟩

/-- C7 counterexample: a push invocation over a locally modified tracked
document compares and copies the document into the repository before any
pull happens — the trace starts with the compare and the pull only occurs
inside the git push step afterwards, refuting pull-comes-first. -/
theorem claim7_counterexample :
    syncPushTrace none demoRepo (some demoMemDiff) =
      [SyncEv.compareEv "MEMORY.md" true, SyncEv.compareEv "2025-01-01.md" true,
        SyncEv.pullEv, SyncEv.addEv, SyncEv.commitEv, SyncEv.pushEv] ∧
    pullBeforeAnyCompare (syncPushTrace none demoRepo (some demoMemDiff)) =
      false := by
  constructor
  · decide
  · decide

/-- C7 (amended): in every push invocation the pull is performed after the
whole compare-and-copy phase over the tracked documents and before the
staging, commit and push: the trace is a block of compare events, then the
pull, then a compare-free tail. -/
theorem claim7_pull_after_copies (remote : Option Dir) (g : GitRepo)
    (m : Dir) :
    ∃ pre post, syncPushTrace remote g (some m) =
        pre ++ SyncEv.pullEv :: post ∧
      (∀ ev ∈ pre, ∃ f b, ev = SyncEv.compareEv f b) ∧
      (∀ ev ∈ post, ∀ f b, ev ≠ SyncEv.compareEv f b) := by
  rw [syncPush_trace_eq]
  have hpre : ∀ ev ∈ (copyPhase m g.working (getFilesToSync m)).2.2 ++
      (copyPhase (copyPhase m g.working (getFilesToSync m)).1 m
        ((getFilesToSync (copyPhase m g.working (getFilesToSync m)).1).filter
          fun f => !((getFilesToSync m).contains f))).2.2,
      ∃ f b, ev = SyncEv.compareEv f b := by
    intro ev hev
    rw [List.mem_append] at hev
    rcases hev with hev | hev
    · exact copyPhase_trace_compares m (getFilesToSync m) g.working ev hev
    · exact copyPhase_trace_compares _ _ m ev hev
  rcases gitPush_trace_shape remote
      { working := (copyPhase m g.working (getFilesToSync m)).1, head := g.head }
    with h | h
  · refine ⟨(copyPhase m g.working (getFilesToSync m)).2.2 ++
      (copyPhase (copyPhase m g.working (getFilesToSync m)).1 m
        ((getFilesToSync (copyPhase m g.working (getFilesToSync m)).1).filter
          fun f => !((getFilesToSync m).contains f))).2.2,
      [SyncEv.addEv], by rw [h], hpre, ?_⟩
    intro ev hev f b
    simp only [List.mem_singleton] at hev
    subst hev
    exact fun hc => SyncEv.noConfusion hc
  · refine ⟨(copyPhase m g.working (getFilesToSync m)).2.2 ++
      (copyPhase (copyPhase m g.working (getFilesToSync m)).1 m
        ((getFilesToSync (copyPhase m g.working (getFilesToSync m)).1).filter
          fun f => !((getFilesToSync m).contains f))).2.2,
      [SyncEv.addEv, SyncEv.commitEv, SyncEv.pushEv], by rw [h], hpre, ?_⟩
    intro ev hev f b
    simp only [List.mem_cons, List.not_mem_nil, or_false] at hev
    rcases hev with rfl | rfl | rfl <;> exact fun hc => SyncEv.noConfusion hc

/-- C9 counterexample: with a credential present, a network error does not
resolve the classifier call to `null` — the awaited fetch rejects, so the
call propagates an exception (which only the caller's top-level catch
swallows). -/
theorem claim9_counterexample :
    callSmallModel demoEnvWithKey NetResult.netError = Except.error () ∧
    callSmallModel demoEnvWithKey NetResult.netError ≠
      Except.ok (none : Option String) := by
  refine ⟨rfl, fun h => ?_⟩
  rw [show callSmallModel demoEnvWithKey NetResult.netError =
    Except.error () from rfl] at h
  exact Except.noConfusion h

/-- C9 (amended): missing credentials, non-success HTTP responses, and
successful responses without a usable text block all resolve the classifier
call to `null`; a network error or an unparseable response body instead
raises an exception; in either failure shape the calling hook records
nothing — no daily-log or handoff write — and no error escapes (the run is a
total state transformer); and credentials are resolved by walking the
environment variable, the two config files and the two key files in order,
returning the first hit. -/
theorem claim9_failure_modes :
    (∀ e net, resolveApiKey e = none →
      callSmallModel e net = Except.ok none) ∧
    (∀ e b, callSmallModel e (NetResult.httpResp false b) = Except.ok none) ∧
    (∀ e k, resolveApiKey e = some k → k ≠ "" →
      callSmallModel e NetResult.netError = Except.error () ∧
      callSmallModel e (NetResult.httpResp true HttpBody.badJson) =
        Except.error ()) ∧
    (∀ st tr sid e net d tm,
      (callSmallModel e net = Except.error () ∨
        callSmallModel e net = Except.ok none) →
      (devRunFull st tr sid e net d tm).dailyLog = st.dailyLog) ∧
    (∀ st tr sid e net d tm,
      (devRunFull st tr sid e net d tm).handoff = st.handoff) ∧
    (∀ e, resolveApiKey e = (credCandidates e).findSome? id) := by
  refine ⟨?_, ?_, ?_, ?_, ?_, ?_⟩
  · intro e net h
    unfold callSmallModel
    rw [h]
  · intro e b
    unfold callSmallModel
    cases hre : resolveApiKey e with
    | none => rfl
    | some k =>
      show (if k = "" then Except.ok (none : Option String)
        else Except.ok none) = Except.ok none
      split <;> rfl
  · intro e k hre hk
    unfold callSmallModel
    rw [hre]
    constructor
    · show (if k = "" then Except.ok (none : Option String)
        else Except.error ()) = Except.error ()
      rw [if_neg hk]
    · show (if k = "" then Except.ok (none : Option String)
        else Except.error ()) = Except.error ()
      rw [if_neg hk]
  · intro st tr sid e net d tm h
    unfold devRunFull
    cases tr with
    | none => rfl
    | some t =>
      rw [devRun_some_eq]
      have hno : outcomeOfCall (callSmallModel e net) = CallOutcome.throws ∨
          outcomeOfCall (callSmallModel e net) = CallOutcome.returns none := by
        rcases h with hc | hc <;> rw [hc]
        · exact Or.inl rfl
        · exact Or.inr rfl
      rw [devRunAfterCursor_noRecord _ _ _ _ _ hno]
      rfl
  · intro st tr sid e net d tm
    unfold devRunFull
    exact devRun_handoff st tr sid _ d tm
  · intro e
    obtain ⟨env, c1, c2, k1, k2⟩ := e
    unfold resolveApiKey credCandidates
    dsimp only
    by_cases he : jsTruthy env
    · cases env with
      | none => simp [jsTruthy] at he
      | some s =>
        rw [if_pos he, if_pos he]
        simp [List.findSome?]
    · rw [if_neg he, if_neg he]
      rcases c1 with _ | (_ | kk) <;> rcases c2 with _ | (_ | kk2) <;>
        rcases k1 with _ | kf1 <;> rcases k2 with _ | kf2 <;>
        simp [List.findSome?, Option.join]

theorem claim9_witness :
    resolveApiKey demoEnvNoKey = none ∧
    callSmallModel demoEnvNoKey NetResult.netError = Except.ok none ∧
    resolveApiKey demoEnvWithKey =
      (credCandidates demoEnvWithKey).findSome? id :=
  ⟨rfl, claim9_failure_modes.1 demoEnvNoKey NetResult.netError rfl,
    claim9_failure_modes.2.2.2.2.2 demoEnvWithKey⟩

/-- C10: a non-blank transcript line that fails to parse contributes nothing
to the normalized text and cannot set the tool-use flag, yet it is counted
in the new offset; the run persists a cursor past it, and any later run over
the further-grown transcript processes only the newly appended region, never
re-examining the malformed line. -/
theorem claim10_malformed_consumed (st : FsState) (xs ys : List TLine)
    (k : Nat) (sid : String) (o : CallOutcome) (d tm : String)
    (hk : k ≤ (nbLines xs).length) :
    (devGetLatestExchange (xs ++ TLine.malformed :: ys) k).text =
      (devGetLatestExchange (xs ++ ys) k).text ∧
    (devGetLatestExchange (xs ++ TLine.malformed :: ys) k).hasToolUse =
      (devGetLatestExchange (xs ++ ys) k).hasToolUse ∧
    (devGetLatestExchange (xs ++ TLine.malformed :: ys) k).totalLines =
      (devGetLatestExchange (xs ++ ys) k).totalLines + 1 ∧
    (devRun st (some (xs ++ TLine.malformed :: ys)) sid o d tm).devCursors sid =
      (nbLines (xs ++ TLine.malformed :: ys)).length ∧
    ∀ more, (devGetLatestExchange ((xs ++ TLine.malformed :: ys) ++ more)
        (nbLines (xs ++ TLine.malformed :: ys)).length).text =
      (devGetLatestExchange more 0).text := by
  have hsplit : nbLines (xs ++ TLine.malformed :: ys) =
      nbLines xs ++ TLine.malformed :: nbLines ys := by
    simp [nbLines, List.filter_append, List.filter_cons, isNonBlank]
  have hsplit2 : nbLines (xs ++ ys) = nbLines xs ++ nbLines ys :=
    nbLines_append xs ys
  refine ⟨?_, ?_, ?_, ?_, ?_⟩
  · rw [devGetLatestExchange_text, devGetLatestExchange_text, hsplit, hsplit2,
      List.drop_append_of_le_length hk, List.drop_append_of_le_length hk,
      List.flatMap_append, List.flatMap_append, List.flatMap_cons,
      show devLineParts TLine.malformed = [] from rfl, List.nil_append]
  · rw [devGetLatestExchange_hasToolUse, devGetLatestExchange_hasToolUse,
      hsplit, hsplit2, List.drop_append_of_le_length hk,
      List.drop_append_of_le_length hk, List.any_append, List.any_append,
      List.any_cons, show lineHasToolUse TLine.malformed = false from rfl,
      Bool.false_or]
  · rw [devGetLatestExchange_totalLines, devGetLatestExchange_totalLines,
      hsplit, hsplit2, List.length_append, List.length_append,
      List.length_cons]
    omega
  · rw [devRun_devCursors_sid]
  · intro more
    rw [devGetLatestExchange_text, devGetLatestExchange_text,
      nbLines_append (xs ++ TLine.malformed :: ys) more, List.drop_left,
      List.drop_zero]

theorem claim10_witness :
    1 ≤ (nbLines demoOld).length ∧
    (devGetLatestExchange (demoOld ++ TLine.malformed :: demoNew) 1).totalLines =
      (devGetLatestExchange (demoOld ++ demoNew) 1).totalLines + 1 :=
  ⟨by decide,
    (claim10_malformed_consumed demoState demoOld demoNew 1 "s1"
      (CallOutcome.returns none) "2025-03-03" "09:00" (by decide)).2.2.1⟩
